import Mathlib

/-!
Shallow embedding of the Minor Planet Center download/reduction pipeline
(`mpc_down_v4.py`): chunked ephemeris retrieval, date-keyed join of
ephemeris and observation rows, perihelion-relative epoch normalization,
and magnitude reduction with per-filter V-band correction.
-/

namespace MPC

/-! ## Calendar dates

Python's `datetime` subtraction `(d1 - d2).days` is the difference of
proleptic-Gregorian ordinals (`date.toordinal`).  We embed dates as
(year, month, day) triples and the ordinal function directly. -/

structure Date where
  year : ℕ
  month : ℕ
  day : ℕ
deriving DecidableEq, Repr

def isLeap (y : ℕ) : Bool :=
  y % 4 == 0 && (y % 100 != 0 || y % 400 == 0)

/-- Cumulative days before each month in a non-leap year (index `m - 1`). -/
def daysBeforeMonth (leap : Bool) (m : ℕ) : ℕ :=
  [0, 31, 59, 90, 120, 151, 181, 212, 243, 273, 304, 334].getD (m - 1) 0
    + (if leap && decide (2 < m) then 1 else 0)

/-- Proleptic Gregorian ordinal, as in Python `date.toordinal`
(0001-01-01 has ordinal 1). -/
def toOrdinal (d : Date) : ℤ :=
  365 * ((d.year : ℤ) - 1)
    + ((d.year - 1 : ℕ) / 4 : ℕ)
    - ((d.year - 1 : ℕ) / 100 : ℕ)
    + ((d.year - 1 : ℕ) / 400 : ℕ)
    + daysBeforeMonth (isLeap d.year) d.month
    + d.day

/-- `(current_date - perihelion_date).days` from `correct_dates`. -/
def delta_days_of (current perihelion : Date) : ℤ :=
  toOrdinal current - toOrdinal perihelion

/-! ## Python rounding

Python's builtin `round` rounds to the nearest integer, ties to the even
integer (banker's rounding). -/

def pyRound (q : ℚ) : ℤ :=
  if q - ⌊q⌋ < 1/2 then ⌊q⌋
  else if 1/2 < q - ⌊q⌋ then ⌊q⌋ + 1
  else if ⌊q⌋ % 2 = 0 then ⌊q⌋ else ⌊q⌋ + 1

/-- Python `round(x, 2)`. -/
def round2 (q : ℚ) : ℚ := (pyRound (q * 100) : ℚ) / 100

/-! ## Epoch normalization (`correct_dates`)

The wrap loops of `correct_dates`:

    while delta_days < - period / 2: delta_days += period
    while delta_days > period / 2:   delta_days -= period

Each loop terminates only for `period > 0` (the spec requires
`periodDays > 0`); the guard `0 < period` reflects that domain. -/

def wrap_up (delta period : ℚ) : ℚ :=
  if h : 0 < period ∧ delta < -(period / 2) then wrap_up (delta + period) period
  else delta
termination_by (Int.ceil ((-(period / 2) - delta) / period)).toNat
decreasing_by
  obtain ⟨hp, hd⟩ := h
  have hkey : (-(period / 2) - (delta + period)) / period
      = (-(period / 2) - delta) / period - 1 := by
    field_simp
    ring
  have hpos : 0 < (-(period / 2) - delta) / period := by
    apply div_pos _ hp
    linarith
  have h1 : 0 < Int.ceil ((-(period / 2) - delta) / period) :=
    Int.ceil_pos.mpr hpos
  rw [hkey, Int.ceil_sub_one]
  omega

def wrap_down (delta period : ℚ) : ℚ :=
  if h : 0 < period ∧ period / 2 < delta then wrap_down (delta - period) period
  else delta
termination_by (Int.ceil ((delta - period / 2) / period)).toNat
decreasing_by
  obtain ⟨hp, hd⟩ := h
  have hkey : ((delta - period) - period / 2) / period
      = (delta - period / 2) / period - 1 := by
    field_simp
    ring
  have hpos : 0 < (delta - period / 2) / period := by
    apply div_pos _ hp
    linarith
  have h1 : 0 < Int.ceil ((delta - period / 2) / period) :=
    Int.ceil_pos.mpr hpos
  rw [hkey, Int.ceil_sub_one]
  omega

/-- Both wrap loops of `correct_dates`, in program order. -/
def wrapDelta (delta period : ℚ) : ℚ := wrap_down (wrap_up delta period) period

/-- Day offset of one row before rounding, as computed by `correct_dates`. -/
def wrapped_offset (current perihelion : Date) (period : ℚ) : ℚ :=
  wrapDelta (delta_days_of current perihelion) period

/-- The rounded day offset written out by `correct_dates`
(`delta_days_rounded = round(delta_days)`). -/
def correct_dates_offset (current perihelion : Date) (period : ℚ) : ℤ :=
  pyRound (wrapped_offset current perihelion period)

lemma wrap_up_lb (delta period : ℚ) (hp : 0 < period) :
    -(period / 2) ≤ wrap_up delta period := by
  induction delta, period using wrap_up.induct with
  | case1 delta period hcond ih =>
    rw [wrap_up, dif_pos hcond]
    exact ih hp
  | case2 delta period hcond =>
    rw [wrap_up, dif_neg hcond]
    rcases not_and_or.mp hcond with hc | hc
    · exact absurd hp hc
    · linarith [not_lt.mp hc]

lemma wrap_up_ub (delta period : ℚ) (hp : 0 < period) :
    wrap_up delta period ≤ max delta (period / 2) := by
  induction delta, period using wrap_up.induct with
  | case1 delta period hcond ih =>
    rw [wrap_up, dif_pos hcond]
    obtain ⟨hp', hd⟩ := hcond
    have h2 : delta + period < period / 2 := by linarith
    have := ih hp
    calc wrap_up (delta + period) period ≤ max (delta + period) (period / 2) := this
    _ ≤ period / 2 := by
        apply max_le (le_of_lt h2) le_rfl
    _ ≤ max delta (period / 2) := le_max_right _ _
  | case2 delta period hcond =>
    rw [wrap_up, dif_neg hcond]
    exact le_max_left _ _

lemma wrap_up_congr (delta period : ℚ) :
    ∃ k : ℤ, wrap_up delta period = delta + k * period := by
  induction delta, period using wrap_up.induct with
  | case1 delta period hcond ih =>
    obtain ⟨k, hk⟩ := ih
    refine ⟨k + 1, ?_⟩
    rw [wrap_up, dif_pos hcond, hk]
    push_cast
    ring
  | case2 delta period hcond =>
    refine ⟨0, ?_⟩
    rw [wrap_up, dif_neg hcond]
    push_cast
    ring

lemma wrap_down_ub (delta period : ℚ) (hp : 0 < period) :
    wrap_down delta period ≤ period / 2 := by
  induction delta, period using wrap_down.induct with
  | case1 delta period hcond ih =>
    rw [wrap_down, dif_pos hcond]
    exact ih hp
  | case2 delta period hcond =>
    rw [wrap_down, dif_neg hcond]
    rcases not_and_or.mp hcond with hc | hc
    · exact absurd hp hc
    · exact not_lt.mp hc

lemma wrap_down_lb (delta period : ℚ) (hp : 0 < period)
    (hlb : -(period / 2) ≤ delta) : -(period / 2) ≤ wrap_down delta period := by
  induction delta, period using wrap_down.induct with
  | case1 delta period hcond ih =>
    rw [wrap_down, dif_pos hcond]
    obtain ⟨hp', hd⟩ := hcond
    exact ih hp (by linarith)
  | case2 delta period hcond =>
    rw [wrap_down, dif_neg hcond]
    exact hlb

lemma wrap_down_congr (delta period : ℚ) :
    ∃ k : ℤ, wrap_down delta period = delta - k * period := by
  induction delta, period using wrap_down.induct with
  | case1 delta period hcond ih =>
    obtain ⟨k, hk⟩ := ih
    refine ⟨k + 1, ?_⟩
    rw [wrap_down, dif_pos hcond, hk]
    push_cast
    ring
  | case2 delta period hcond =>
    refine ⟨0, ?_⟩
    rw [wrap_down, dif_neg hcond]
    push_cast
    ring

/-- C1: for every joined row (any pair of calendar dates) and every
`periodDays > 0`, the pre-rounding offset computed by `correct_dates`
lies in `[-periodDays/2, periodDays/2]` and differs from the whole-day
date difference by an integer multiple of `periodDays`. -/
theorem epoch_offset_bounds_and_congruence (current perihelion : Date)
    (period : ℚ) (hp : 0 < period) :
    -(period / 2) ≤ wrapped_offset current perihelion period ∧
    wrapped_offset current perihelion period ≤ period / 2 ∧
    ∃ k : ℤ, wrapped_offset current perihelion period
      = (delta_days_of current perihelion : ℚ) - k * period := by
  unfold wrapped_offset wrapDelta
  set d : ℚ := (delta_days_of current perihelion : ℚ) with hd
  refine ⟨?_, wrap_down_ub _ _ hp, ?_⟩
  · exact wrap_down_lb _ _ hp (wrap_up_lb _ _ hp)
  · obtain ⟨k1, hk1⟩ := wrap_up_congr d period
    obtain ⟨k2, hk2⟩ := wrap_down_congr (wrap_up d period) period
    refine ⟨k2 - k1, ?_⟩
    rw [hk2, hk1]
    push_cast
    ring

theorem epoch_offset_bounds_and_congruence_witness :
    (0 : ℚ) < 1461 / 4 ∧
    (-((1461 / 4 : ℚ) / 2) ≤ wrapped_offset ⟨2023, 1, 10⟩ ⟨2023, 1, 1⟩ (1461 / 4) ∧
     wrapped_offset ⟨2023, 1, 10⟩ ⟨2023, 1, 1⟩ (1461 / 4) ≤ (1461 / 4 : ℚ) / 2 ∧
     ∃ k : ℤ, wrapped_offset ⟨2023, 1, 10⟩ ⟨2023, 1, 1⟩ (1461 / 4)
       = (delta_days_of ⟨2023, 1, 10⟩ ⟨2023, 1, 1⟩ : ℚ) - k * (1461 / 4)) :=
  ⟨by norm_num,
   epoch_offset_bounds_and_congruence ⟨2023, 1, 10⟩ ⟨2023, 1, 1⟩ (1461 / 4)
     (by norm_num)⟩

/-- C8 counterexample: for a row dated 400 days before perihelion
(2021-11-27 against perihelion 2023-01-01) with `periodDays = 365.25`,
`correct_dates` wraps `-400` to `-34.75` and rounds it to `-35`, a
negative offset — not the claimed positive `35`. -/
theorem offset_400_days_before_perihelion_cex :
    delta_days_of ⟨2021, 11, 27⟩ ⟨2023, 1, 1⟩ = -400 ∧
    wrapped_offset ⟨2021, 11, 27⟩ ⟨2023, 1, 1⟩ (1461 / 4) = -(139 / 4) ∧
    correct_dates_offset ⟨2021, 11, 27⟩ ⟨2023, 1, 1⟩ (1461 / 4) = -35 ∧
    correct_dates_offset ⟨2021, 11, 27⟩ ⟨2023, 1, 1⟩ (1461 / 4) ≠ 35 ∧
    correct_dates_offset ⟨2021, 11, 27⟩ ⟨2023, 1, 1⟩ (1461 / 4) < 0 := by
  have hdelta : delta_days_of ⟨2021, 11, 27⟩ ⟨2023, 1, 1⟩ = -400 := by decide
  have hwrap : wrapped_offset ⟨2021, 11, 27⟩ ⟨2023, 1, 1⟩ (1461 / 4)
      = -(139 / 4) := by
    unfold wrapped_offset wrapDelta
    rw [hdelta]
    have h1 : wrap_up ((-400 : ℤ) : ℚ) (1461 / 4) = -(139 / 4) := by
      rw [wrap_up, dif_pos (by norm_num)]
      norm_num
      rw [wrap_up, dif_neg (by norm_num)]
    rw [h1, wrap_down, dif_neg (by norm_num)]
  refine ⟨hdelta, hwrap, ?_, ?_, ?_⟩ <;>
    simp only [correct_dates_offset, hwrap] <;> norm_num [pyRound]

/-- C8 amended: for a row dated 400 days before perihelion with
`periodDays = 365.25`, epoch normalization wraps the offset to
`-400 + 365.25 = -34.75` and rounds it to the integer `-35`, with
negative sign. -/
theorem offset_400_days_before_perihelion_amended :
    wrapped_offset ⟨2021, 11, 27⟩ ⟨2023, 1, 1⟩ (1461 / 4)
      = (delta_days_of ⟨2021, 11, 27⟩ ⟨2023, 1, 1⟩ : ℚ) + 1461 / 4 ∧
    wrapped_offset ⟨2021, 11, 27⟩ ⟨2023, 1, 1⟩ (1461 / 4) = -(139 / 4) ∧
    correct_dates_offset ⟨2021, 11, 27⟩ ⟨2023, 1, 1⟩ (1461 / 4) = -35 ∧
    correct_dates_offset ⟨2021, 11, 27⟩ ⟨2023, 1, 1⟩ (1461 / 4) < 0 := by
  have hdelta : delta_days_of ⟨2021, 11, 27⟩ ⟨2023, 1, 1⟩ = -400 := by decide
  have hwrap : wrapped_offset ⟨2021, 11, 27⟩ ⟨2023, 1, 1⟩ (1461 / 4)
      = -(139 / 4) := by
    unfold wrapped_offset wrapDelta
    rw [hdelta]
    have h1 : wrap_up ((-400 : ℤ) : ℚ) (1461 / 4) = -(139 / 4) := by
      rw [wrap_up, dif_pos (by norm_num)]
      norm_num
      rw [wrap_up, dif_neg (by norm_num)]
    rw [h1, wrap_down, dif_neg (by norm_num)]
  refine ⟨?_, hwrap, ?_, ?_⟩
  · rw [hwrap, hdelta]
    norm_num
  all_goals simp only [correct_dates_offset, hwrap] <;> norm_num [pyRound]

/-! ## Date-keyed join (`combine_data`)

`combine_data` reads whitespace-split lines; for each observation line
with at least 5 fields it scans every ephemeris line and compares the
keys `' '.join(parts[0:3])` as raw text, appending
`obs_parts + eph_parts[3:6]` and incrementing `n_obs` on each match. -/

/-- The textual date key `' '.join(parts[0:3])`. -/
def dateKey (parts : List String) : String :=
  String.intercalate (" ") (parts.take 3)

/-- Numeric reading of a decimal token (used only to state that two date
tokens are numerically equal, e.g. `01` and `1`). -/
def parseNat (s : String) : Option ℕ :=
  if s.toList ≠ [] ∧ s.toList.all Char.isDigit then
    some (s.toList.foldl (fun n c => 10 * n + (c.toNat - 48)) 0)
  else none

/-- One emitted line: `' '.join(obs_parts + eph_parts[3:6])`. -/
def joined_line (obs_parts eph_parts : List String) : List String :=
  obs_parts ++ (eph_parts.drop 3).take 3

/-- The inner loop of `combine_data` over the ephemeris file, carrying the
(already written lines, `n_obs`) state. -/
def combine_data_inner (obs_parts : List String)
    (eph_lines : List (List String)) (acc : List (List String) × ℕ) :
    List (List String) × ℕ :=
  eph_lines.foldl
    (fun acc2 eph_parts =>
      if dateKey eph_parts = dateKey obs_parts then
        (acc2.1 ++ [joined_line obs_parts eph_parts], acc2.2 + 1)
      else acc2)
    acc

/-- `combine_data`: (emitted joined lines, `n_obs`). -/
def combine_data (obs_lines eph_lines : List (List String)) :
    List (List String) × ℕ :=
  obs_lines.foldl
    (fun acc obs_parts =>
      if 5 ≤ obs_parts.length then combine_data_inner obs_parts eph_lines acc
      else acc)
    ([], 0)

/-- All matches of one observation line against the ephemeris lines. -/
def joinMatches (obs_parts : List String)
    (eph_lines : List (List String)) : List (List String) :=
  eph_lines.filterMap fun eph_parts =>
    if dateKey eph_parts = dateKey obs_parts then
      some (joined_line obs_parts eph_parts)
    else none

/-- Loop-free description of the emitted joined lines. -/
def combined_rows (obs_lines eph_lines : List (List String)) :
    List (List String) :=
  obs_lines.flatMap fun o =>
    if 5 ≤ o.length then joinMatches o eph_lines else []

lemma joinMatches_cons (o ep : List String) (rest : List (List String)) :
    joinMatches o (ep :: rest)
      = (if dateKey ep = dateKey o then [joined_line o ep] else [])
        ++ joinMatches o rest := by
  by_cases hm : dateKey ep = dateKey o <;>
    simp [joinMatches, List.filterMap_cons, hm]

lemma combine_data_inner_eq (o : List String)
    (eph : List (List String)) (acc : List (List String) × ℕ) :
    combine_data_inner o eph acc
      = (acc.1 ++ joinMatches o eph, acc.2 + (joinMatches o eph).length) := by
  induction eph generalizing acc with
  | nil => simp [combine_data_inner, joinMatches]
  | cons ep rest ih =>
    by_cases hm : dateKey ep = dateKey o
    · simp only [combine_data_inner, List.foldl_cons, if_pos hm] at *
      rw [ih]
      simp [joinMatches, hm, List.append_assoc]
      omega
    · simp only [combine_data_inner, List.foldl_cons, if_neg hm] at *
      rw [ih]
      simp [joinMatches, hm]

lemma combine_data_foldl_eq (obs eph : List (List String))
    (acc : List (List String) × ℕ) :
    obs.foldl
      (fun acc obs_parts =>
        if 5 ≤ obs_parts.length then combine_data_inner obs_parts eph acc
        else acc)
      acc
      = (acc.1 ++ combined_rows obs eph,
         acc.2 + (combined_rows obs eph).length) := by
  induction obs generalizing acc with
  | nil => simp [combined_rows]
  | cons o rest ih =>
    by_cases hl : 5 ≤ o.length
    · simp only [List.foldl_cons, if_pos hl]
      rw [combine_data_inner_eq, ih]
      simp [combined_rows, hl, List.append_assoc]
      omega
    · simp only [List.foldl_cons, if_neg hl]
      rw [ih]
      simp [combined_rows, hl]

/-- `combine_data` emits exactly `combined_rows` and counts its length. -/
lemma combine_data_eq (obs eph : List (List String)) :
    combine_data obs eph
      = (combined_rows obs eph, (combined_rows obs eph).length) := by
  have := combine_data_foldl_eq obs eph ([], 0)
  simpa [combine_data] using this

lemma joinMatches_eq_nil (o : List String) (eph : List (List String))
    (hnone : ∀ ep ∈ eph, dateKey ep ≠ dateKey o) :
    joinMatches o eph = [] := by
  induction eph with
  | nil => rfl
  | cons ep rest ih =>
    have h1 : dateKey ep ≠ dateKey o := hnone ep (List.mem_cons_self _ _)
    rw [joinMatches_cons, if_neg h1, List.nil_append]
    exact ih fun ep' hm => hnone ep' (List.mem_cons_of_mem _ hm)

lemma joinMatches_length_le_one (o : List String)
    (eph : List (List String)) (huniq : (eph.map dateKey).Nodup) :
    (joinMatches o eph).length ≤ 1 := by
  induction eph with
  | nil => simp [joinMatches]
  | cons ep rest ih =>
    rw [List.map_cons, List.nodup_cons] at huniq
    obtain ⟨hnotmem, hrest⟩ := huniq
    rw [joinMatches_cons]
    by_cases hm : dateKey ep = dateKey o
    · have hnil : joinMatches o rest = [] := by
        apply joinMatches_eq_nil
        intro ep' hmem heq
        exact hnotmem (by
          rw [hm, ← heq]
          exact List.mem_map_of_mem dateKey hmem)
      rw [if_pos hm, hnil]
      simp
    · rw [if_neg hm, List.nil_append]
      exact ih hrest

lemma combined_rows_length_le (obs eph : List (List String))
    (huniq : (eph.map dateKey).Nodup) :
    (combined_rows obs eph).length ≤ obs.length := by
  induction obs with
  | nil => simp [combined_rows]
  | cons o rest ih =>
    simp only [combined_rows, List.flatMap_cons, List.length_append,
      List.length_cons]
    have h1 : (if 5 ≤ o.length then joinMatches o eph else []).length ≤ 1 := by
      split
      · exact joinMatches_length_le_one o eph huniq
      · simp
    have h2 := ih
    simp only [combined_rows] at h2
    omega

/-- C4: when ephemeris dates are unique (so "the unique ephemeris row
sharing its date" is well defined), the join emits at most one row per
observation line, and every emitted row is the observation fields
followed by fields 3..5 (delta, r, phase) of an ephemeris row sharing
its textual (year, month, day) key. -/
theorem join_count_le_obs_and_fields_from_matching_ephemeris
    (obs eph : List (List String)) (huniq : (eph.map dateKey).Nodup) :
    (combine_data obs eph).2 ≤ obs.length ∧
    ∀ row ∈ (combine_data obs eph).1, ∃ o ∈ obs, ∃ ep ∈ eph,
      dateKey ep = dateKey o ∧ row = o ++ (ep.drop 3).take 3 := by
  rw [combine_data_eq]
  constructor
  · exact combined_rows_length_le obs eph huniq
  · intro row hrow
    simp only [combined_rows, List.mem_flatMap] at hrow
    obtain ⟨o, ho, hmem⟩ := hrow
    refine ⟨o, ho, ?_⟩
    by_cases hl : 5 ≤ o.length
    · rw [if_pos hl] at hmem
      simp only [joinMatches, List.mem_filterMap] at hmem
      obtain ⟨ep, hep, heq⟩ := hmem
      by_cases hm : dateKey ep = dateKey o
      · rw [if_pos hm] at heq
        exact ⟨ep, hep, hm, (Option.some_injective _ heq).symm⟩
      · rw [if_neg hm] at heq
        exact absurd heq (Option.noConfusion)
    · rw [if_neg hl] at hmem
      exact absurd hmem (List.not_mem_nil row)

theorem join_count_le_obs_and_fields_from_matching_ephemeris_witness :
    ((([["2023", "1", "1", "1.5", "1.2", "10.0"]] :
        List (List String)).map dateKey).Nodup) ∧
    ((combine_data [["2023", "1", "1", "18.5", "V"]]
        [["2023", "1", "1", "1.5", "1.2", "10.0"]]).2 ≤ 1 ∧
     ∀ row ∈ (combine_data [["2023", "1", "1", "18.5", "V"]]
        [["2023", "1", "1", "1.5", "1.2", "10.0"]]).1,
       ∃ o ∈ [["2023", "1", "1", "18.5", "V"]],
       ∃ ep ∈ [["2023", "1", "1", "1.5", "1.2", "10.0"]],
         dateKey ep = dateKey o ∧ row = o ++ (ep.drop 3).take 3) :=
  ⟨by decide,
   join_count_le_obs_and_fields_from_matching_ephemeris
     [["2023", "1", "1", "18.5", "V"]]
     [["2023", "1", "1", "1.5", "1.2", "10.0"]] (by decide)⟩

/-- C5: the join is total (no error path): the returned count is exactly
the number of emitted joined rows, and an observation line whose date
key matches no ephemeris line is silently omitted — removing it leaves
the join output and count unchanged. -/
theorem join_counts_and_silent_drop :
    (∀ obs eph : List (List String),
      (combine_data obs eph).2 = (combine_data obs eph).1.length) ∧
    (∀ obs eph : List (List String), ∀ o : List String,
      (∀ ep ∈ eph, dateKey ep ≠ dateKey o) →
      combine_data (o :: obs) eph = combine_data obs eph) := by
  constructor
  · intro obs eph
    rw [combine_data_eq]
  · intro obs eph o hnone
    rw [combine_data_eq, combine_data_eq]
    have hrows : combined_rows (o :: obs) eph = combined_rows obs eph := by
      simp only [combined_rows, List.flatMap_cons]
      have : (if 5 ≤ o.length then joinMatches o eph else []) = [] := by
        split
        · exact joinMatches_eq_nil o eph hnone
        · rfl
      rw [this, List.nil_append]
    rw [hrows]

theorem join_counts_and_silent_drop_witness :
    ((combine_data [["2023", "1", "2", "18.5", "V"]]
        [["2023", "1", "1", "1.5", "1.2", "10.0"]]).2
      = (combine_data [["2023", "1", "2", "18.5", "V"]]
        [["2023", "1", "1", "1.5", "1.2", "10.0"]]).1.length) ∧
    combine_data [["2023", "1", "2", "18.5", "V"]]
        [["2023", "1", "1", "1.5", "1.2", "10.0"]]
      = combine_data [] [["2023", "1", "1", "1.5", "1.2", "10.0"]] :=
  ⟨join_counts_and_silent_drop.1 [["2023", "1", "2", "18.5", "V"]]
     [["2023", "1", "1", "1.5", "1.2", "10.0"]],
   join_counts_and_silent_drop.2 [] [["2023", "1", "1", "1.5", "1.2", "10.0"]]
     ["2023", "1", "2", "18.5", "V"] (by decide)⟩

/-- C10: the join compares dates as whitespace-joined raw text; an
observation line and an ephemeris line whose first three fields are
numerically the same date but textually different (for instance a
zero-padded month token) produce no joined row — the observation is
silently dropped and the count stays 0. -/
theorem join_compares_dates_textually (o ep : List String)
    (hlen : 5 ≤ o.length)
    (hnum : (o.take 3).map parseNat = (ep.take 3).map parseNat)
    (htext : dateKey o ≠ dateKey ep) :
    combine_data [o] [ep] = ([], 0) := by
  rw [combine_data_eq]
  have hrows : combined_rows [o] [ep] = [] := by
    simp only [combined_rows, List.flatMap_cons, List.flatMap_nil,
      List.append_nil, if_pos hlen]
    exact joinMatches_eq_nil o [ep] (by
      intro ep' hmem heq
      rw [List.mem_singleton] at hmem
      subst hmem
      exact htext heq.symm)
  rw [hrows]
  rfl

theorem join_compares_dates_textually_witness :
    (5 ≤ (["2023", "01", "5", "18.5", "V"] : List String).length) ∧
    combine_data [["2023", "01", "5", "18.5", "V"]]
        [["2023", "1", "5", "1.5", "1.2", "10.0"]] = ([], 0) :=
  ⟨by decide,
   join_compares_dates_textually ["2023", "01", "5", "18.5", "V"]
     ["2023", "1", "5", "1.5", "1.2", "10.0"]
     (by decide) (by decide) (by decide)⟩

/-! ## Magnitude reduction (`reduce_magnitudes`)

A `modified_dates.txt` line is
`t-tq m_observed filter delta r phase year month day`.  The reducer
discards filters in `discarded_filters`, looks the remaining filters up
in `v_band_correction` (Python raises a `KeyError` on an unknown key —
modelled as `Except.error`), and writes
`round(m_observed - 5*log10(delta*r) + correction, 2)`.  `math.log10` is
an external numeric routine, taken as a parameter `log10`. -/

/-- Filters correction to V (`v_band_correction`). -/
def v_band_correction : List (String × ℚ) :=
  [("blank", 0), ("U", -1.3), ("B", -0.8), ("g", -0.35), ("V", 0),
   ("r", 0.14), ("R", 0.4), ("C", 0.4), ("W", 0.4), ("i", 0.32),
   ("z", 0.26), ("I", 0.8), ("J", 1.2), ("w", -0.13), ("y", 0.32),
   ("L", 0.2), ("H", 1.4), ("K", 1.7), ("Y", 0.7), ("G", 0.28),
   ("v", 0), ("c", -0.05), ("o", 0.33), ("u", 2.5), ("N", 0), ("T", 0)]

/-- Discarded filters. -/
def discarded_filters : List String := ["U", "u", "B", "I", "J", "H", "K"]

/-- One parsed line of `modified_dates.txt`. -/
structure NormalizedRow where
  t_tq : ℤ
  m_observed : ℚ
  filter : String
  delta : ℚ
  r : ℚ
  phase : ℚ
  year : String
  month : String
  day : String

/-- One output line of `reduced_data.txt`
(`year month day t-tq delta r phase m_observed m_abs`). -/
structure ReducedRow where
  year : String
  month : String
  day : String
  t_tq : ℤ
  delta : ℚ
  r : ℚ
  phase : ℚ
  m_observed : ℚ
  m_abs : ℚ

inductive ReduceError where
  | unknownFilter (filt : String)

/-- The reduced line written for a kept row, with band correction `corr`:
`m_abs = round(m_observed - 5*math.log10(delta*r) + corr, 2)`. -/
def mkReduced (log10 : ℚ → ℚ) (row : NormalizedRow) (corr : ℚ) : ReducedRow :=
  ⟨row.year, row.month, row.day, row.t_tq, row.delta, row.r, row.phase,
   row.m_observed,
   round2 (row.m_observed - 5 * log10 (row.delta * row.r) + corr)⟩

/-- The loop of `reduce_magnitudes`, carrying
(written lines, `n_discarded_obs`, `n_obs_left`). -/
def reduce_go (log10 : ℚ → ℚ) :
    List NormalizedRow → List ReducedRow × ℕ × ℕ →
    Except ReduceError (List ReducedRow × ℕ × ℕ)
  | [], acc => .ok acc
  | row :: rest, (out, n_discarded, n_left) =>
    if row.filter ∈ discarded_filters then
      reduce_go log10 rest (out, n_discarded + 1, n_left)
    else
      match List.lookup row.filter v_band_correction with
      | none => .error (.unknownFilter row.filter)
      | some corr =>
        reduce_go log10 rest (out ++ [mkReduced log10 row corr],
          n_discarded, n_left + 1)

/-- `reduce_magnitudes`: emitted reduced lines, discarded count, kept
count; fails (Python `KeyError`) on a non-discarded unknown filter. -/
def reduce_magnitudes (log10 : ℚ → ℚ) (rows : List NormalizedRow) :
    Except ReduceError (List ReducedRow × ℕ × ℕ) :=
  reduce_go log10 rows ([], 0, 0)

lemma length_filter_partition {α : Type} (p : α → Bool) (l : List α) :
    (l.filter p).length + (l.filter fun a => !(p a)).length = l.length := by
  induction l with
  | nil => rfl
  | cons a rest ih =>
    by_cases hp : p a = true <;>
      simp [List.filter_cons, hp, Nat.succ_eq_add_one] <;> omega

lemma reduce_go_ok (log10 : ℚ → ℚ) (rows : List NormalizedRow) :
    ∀ out : List ReducedRow, ∀ nd nk : ℕ,
    ∀ out' : List ReducedRow, ∀ nd' nk' : ℕ,
    reduce_go log10 rows (out, nd, nk) = .ok (out', nd', nk') →
    nd' = nd + (rows.filter fun row =>
      decide (row.filter ∈ discarded_filters)).length ∧
    nk' = nk + (rows.filter fun row =>
      !decide (row.filter ∈ discarded_filters)).length ∧
    ∀ red ∈ out', red ∈ out ∨ ∃ row ∈ rows,
      row.filter ∉ discarded_filters ∧ ∃ corr : ℚ,
        List.lookup row.filter v_band_correction = some corr ∧
        red = mkReduced log10 row corr := by
  induction rows with
  | nil =>
    intro out nd nk out' nd' nk' hok
    simp only [reduce_go, Except.ok.injEq, Prod.mk.injEq] at hok
    obtain ⟨h1, h2, h3⟩ := hok
    subst h1; subst h2; subst h3
    simp
  | cons row rest ih =>
    intro out nd nk out' nd' nk' hok
    by_cases hm : row.filter ∈ discarded_filters
    · rw [reduce_go, if_pos hm] at hok
      obtain ⟨c1, c2, c3⟩ := ih out (nd + 1) nk out' nd' nk' hok
      refine ⟨?_, ?_, ?_⟩
      · rw [c1]
        simp [List.filter_cons, hm]
        omega
      · rw [c2]
        simp [List.filter_cons, hm]
      · intro red hred
        rcases c3 red hred with h | ⟨row', hrow', hh⟩
        · exact Or.inl h
        · exact Or.inr ⟨row', List.mem_cons_of_mem _ hrow', hh⟩
    · rw [reduce_go, if_neg hm] at hok
      cases hlook : List.lookup row.filter v_band_correction with
      | none =>
        rw [hlook] at hok
        exact absurd hok (by simp)
      | some corr =>
        rw [hlook] at hok
        obtain ⟨c1, c2, c3⟩ :=
          ih (out ++ [mkReduced log10 row corr]) nd (nk + 1) out' nd' nk' hok
        refine ⟨?_, ?_, ?_⟩
        · rw [c1]
          simp [List.filter_cons, hm]
        · rw [c2]
          simp [List.filter_cons, hm]
          omega
        · intro red hred
          rcases c3 red hred with h | ⟨row', hrow', hh⟩
          · rw [List.mem_append, List.mem_singleton] at h
            rcases h with h | h
            · exact Or.inl h
            · exact Or.inr ⟨row, List.mem_cons_self _ _, hm, corr, hlook, h⟩
          · exact Or.inr ⟨row', List.mem_cons_of_mem _ hrow', hh⟩

/-- C2: whenever `reduce_magnitudes` succeeds, the discarded count is
exactly the number of rows whose filter is in
`{U, u, B, I, J, H, K}`, kept + discarded equals the input row count,
and every emitted row comes from a kept input row via the reduction
formula: its `m_abs` is `round(m_observed - 5*log10(delta*r) + corr, 2)`
recomputed from its own fields and its filter's band correction. -/
theorem magnitude_reduction_counts_and_formula (log10 : ℚ → ℚ)
    (rows : List NormalizedRow) (out : List ReducedRow) (nd nk : ℕ)
    (hok : reduce_magnitudes log10 rows = .ok (out, nd, nk)) :
    nd = (rows.filter fun row =>
      decide (row.filter ∈ discarded_filters)).length ∧
    nk = (rows.filter fun row =>
      !decide (row.filter ∈ discarded_filters)).length ∧
    nk + nd = rows.length ∧
    ∀ red ∈ out, ∃ row ∈ rows, row.filter ∉ discarded_filters ∧
      ∃ corr : ℚ, List.lookup row.filter v_band_correction = some corr ∧
        red = mkReduced log10 row corr ∧
        red.m_abs = round2 (red.m_observed
          - 5 * log10 (red.delta * red.r) + corr) := by
  obtain ⟨c1, c2, c3⟩ := reduce_go_ok log10 rows [] 0 0 out nd nk hok
  rw [Nat.zero_add] at c1 c2
  refine ⟨c1, c2, ?_, ?_⟩
  · rw [c1, c2, Nat.add_comm]
    exact length_filter_partition _ rows
  · intro red hred
    rcases c3 red hred with h | ⟨row, hrow, hnotd, corr, hlook, heq⟩
    · exact absurd h (List.not_mem_nil red)
    · refine ⟨row, hrow, hnotd, corr, hlook, heq, ?_⟩
      rw [heq]
      simp [mkReduced]

theorem magnitude_reduction_counts_and_formula_witness :
    reduce_magnitudes (fun _ => 0)
        [⟨0, 18.5, "V", 1.5, 1.2, 10.0, "2023", "1", "1"⟩,
         ⟨0, 17.0, "U", 1.5, 1.2, 10.0, "2023", "1", "2"⟩]
      = .ok ([mkReduced (fun _ => 0)
          ⟨0, 18.5, "V", 1.5, 1.2, 10.0, "2023", "1", "1"⟩ 0], 1, 1) ∧
    ((1 : ℕ) = ([(⟨0, 18.5, "V", 1.5, 1.2, 10.0, "2023", "1", "1"⟩ :
          NormalizedRow),
        ⟨0, 17.0, "U", 1.5, 1.2, 10.0, "2023", "1", "2"⟩].filter fun row =>
          decide (row.filter ∈ discarded_filters)).length ∧
     (1 : ℕ) = ([(⟨0, 18.5, "V", 1.5, 1.2, 10.0, "2023", "1", "1"⟩ :
          NormalizedRow),
        ⟨0, 17.0, "U", 1.5, 1.2, 10.0, "2023", "1", "2"⟩].filter fun row =>
          !decide (row.filter ∈ discarded_filters)).length ∧
     1 + 1 = 2 ∧
     ∀ red ∈ [mkReduced (fun _ => (0 : ℚ))
          ⟨0, 18.5, "V", 1.5, 1.2, 10.0, "2023", "1", "1"⟩ 0],
       ∃ row ∈ [(⟨0, 18.5, "V", 1.5, 1.2, 10.0, "2023", "1", "1"⟩ :
            NormalizedRow),
          ⟨0, 17.0, "U", 1.5, 1.2, 10.0, "2023", "1", "2"⟩],
         row.filter ∉ discarded_filters ∧
         ∃ corr : ℚ,
           List.lookup row.filter v_band_correction = some corr ∧
           red = mkReduced (fun _ => 0) row corr ∧
           red.m_abs = round2 (red.m_observed
             - 5 * (fun _ : ℚ => (0 : ℚ)) (red.delta * red.r) + corr)) := by
  have hok : reduce_magnitudes (fun _ => (0 : ℚ))
      [⟨0, 18.5, "V", 1.5, 1.2, 10.0, "2023", "1", "1"⟩,
       ⟨0, 17.0, "U", 1.5, 1.2, 10.0, "2023", "1", "2"⟩]
      = .ok ([mkReduced (fun _ => 0)
          ⟨0, 18.5, "V", 1.5, 1.2, 10.0, "2023", "1", "1"⟩ 0], 1, 1) := by
    rfl
  refine ⟨hok, ?_⟩
  have h2 := magnitude_reduction_counts_and_formula (fun _ => 0)
    [⟨0, 18.5, "V", 1.5, 1.2, 10.0, "2023", "1", "1"⟩,
     ⟨0, 17.0, "U", 1.5, 1.2, 10.0, "2023", "1", "2"⟩]
    [mkReduced (fun _ => 0)
      ⟨0, 18.5, "V", 1.5, 1.2, 10.0, "2023", "1", "1"⟩ 0] 1 1 hok
  simpa using h2

lemma reduce_go_unknown_filter (log10 : ℚ → ℚ)
    (rows : List NormalizedRow) :
    ∀ acc : List ReducedRow × ℕ × ℕ,
    (∃ row ∈ rows, row.filter ∉ discarded_filters ∧
      List.lookup row.filter v_band_correction = none) →
    ∃ f : String, reduce_go log10 rows acc
      = .error (ReduceError.unknownFilter f) := by
  induction rows with
  | nil =>
    intro acc hbad
    obtain ⟨row, hmem, _⟩ := hbad
    exact absurd hmem (List.not_mem_nil row)
  | cons row rest ih =>
    rintro ⟨out, nd, nk⟩ hbad
    by_cases hm : row.filter ∈ discarded_filters
    · rw [reduce_go, if_pos hm]
      apply ih
      obtain ⟨row', hmem', hnd', hlk'⟩ := hbad
      rcases List.mem_cons.mp hmem' with h | h
      · subst h
        exact absurd hm hnd'
      · exact ⟨row', h, hnd', hlk'⟩
    · rw [reduce_go, if_neg hm]
      cases hlook : List.lookup row.filter v_band_correction with
      | none => exact ⟨row.filter, rfl⟩
      | some corr =>
        apply ih
        obtain ⟨row', hmem', hnd', hlk'⟩ := hbad
        rcases List.mem_cons.mp hmem' with h | h
        · subst h
          rw [hlook] at hlk'
          exact absurd hlk' (by simp)
        · exact ⟨row', h, hnd', hlk'⟩

/-- C7: if the input contains a row whose filter is neither discarded
nor in the band-correction table, the reduction stage fails with an
unknown-filter error (Python `KeyError`) instead of emitting rows with
a default correction. -/
theorem unknown_filter_aborts_reduction (log10 : ℚ → ℚ)
    (rows : List NormalizedRow)
    (hbad : ∃ row ∈ rows, row.filter ∉ discarded_filters ∧
      List.lookup row.filter v_band_correction = none) :
    ∃ f : String, reduce_magnitudes log10 rows
      = .error (ReduceError.unknownFilter f) :=
  reduce_go_unknown_filter log10 rows ([], 0, 0) hbad

theorem unknown_filter_aborts_reduction_witness :
    (∃ row ∈ [(⟨0, 18.5, "X", 1.5, 1.2, 10.0, "2023", "1", "1"⟩ :
        NormalizedRow)], row.filter ∉ discarded_filters ∧
      List.lookup row.filter v_band_correction = none) ∧
    ∃ f : String, reduce_magnitudes (fun _ => 0)
        [⟨0, 18.5, "X", 1.5, 1.2, 10.0, "2023", "1", "1"⟩]
      = .error (ReduceError.unknownFilter f) :=
  ⟨⟨⟨0, 18.5, "X", 1.5, 1.2, 10.0, "2023", "1", "1"⟩,
    List.mem_singleton_self _, by decide, rfl⟩,
   unknown_filter_aborts_reduction (fun _ => 0)
     [⟨0, 18.5, "X", 1.5, 1.2, 10.0, "2023", "1", "1"⟩]
     ⟨⟨0, 18.5, "X", 1.5, 1.2, 10.0, "2023", "1", "1"⟩,
      List.mem_singleton_self _, by decide, rfl⟩⟩

/-! ## Chunked ephemeris fetch (`download_ephem_for_period`)

Dates are handled through their ordinals.  The loop computes
`difference = (end_date - start_date).days + 1`, then repeatedly
requests `days_to_download = min(difference, 4001)` days starting at the
current start date, advancing `start_date` by `days_to_download` and
decreasing `difference` until it reaches 0. -/

/-- The chunk requests (start ordinal, day count) issued by
`download_ephem_for_period`, in request order. -/
def ephemChunks (start : ℤ) (difference : ℕ) : List (ℤ × ℕ) :=
  if difference = 0 then []
  else
    (start, min difference 4001) ::
      ephemChunks (start + min difference 4001)
        (difference - min difference 4001)
termination_by difference
decreasing_by
  omega

/-- The chunk list issued for a date range `[start_date, end_date]`. -/
def ephemChunksFor (start_date end_date : Date) : List (ℤ × ℕ) :=
  ephemChunks (toOrdinal start_date)
    (toOrdinal end_date - toOrdinal start_date + 1).toNat

lemma ephemChunks_eq_map (difference : ℕ) : ∀ start : ℤ,
    ephemChunks start difference
      = (List.range ((difference + 4000) / 4001)).map
          (fun i : ℕ =>
            (start + 4001 * (i : ℤ), min (difference - 4001 * i) 4001)) := by
  induction difference using Nat.strong_induction_on with
  | _ difference ih =>
    intro start
    by_cases h0 : difference = 0
    · subst h0
      rw [ephemChunks]
      norm_num
    · rw [ephemChunks, if_neg h0]
      by_cases hbig : 4001 < difference
      · have hmin : min difference 4001 = 4001 := by omega
        rw [hmin, ih (difference - 4001) (by omega)]
        have hK : (difference + 4000) / 4001
            = (difference - 4001 + 4000) / 4001 + 1 := by
          omega
        rw [hK, List.range_succ_eq_map, List.map_cons, List.map_map]
        congr 1
        · rw [Prod.mk.injEq]
          constructor
          · push_cast
            ring
          · omega
        · apply List.map_congr_left
          intro i hi
          simp only [Function.comp_apply]
          rw [Prod.mk.injEq]
          constructor
          · push_cast
            ring
          · omega
      · have hmin : min difference 4001 = difference := by omega
        have hK : (difference + 4000) / 4001 = 1 := by omega
        rw [hmin, Nat.sub_self, ephemChunks, if_pos rfl, hK]
        rw [show List.range 1 = [0] from rfl, List.map_cons, List.map_nil]
        congr 1
        rw [Prod.mk.injEq]
        constructor
        · push_cast
          ring
        · omega

lemma ephemChunks_chain (difference : ℕ) (start : ℤ) :
    List.Chain' (fun a b : ℤ × ℕ => b.1 = a.1 + (a.2 : ℤ))
      (ephemChunks start difference) := by
  induction difference using Nat.strong_induction_on generalizing start with
  | _ difference ih =>
    by_cases h0 : difference = 0
    · subst h0
      rw [ephemChunks]
      simp
    · rw [ephemChunks, if_neg h0]
      apply List.Chain'.cons'
      · exact ih (difference - min difference 4001) (by omega) _
      · intro b hb
        have hne : difference - min difference 4001 ≠ 0 ∨
            difference - min difference 4001 = 0 := by omega
        rcases Nat.eq_zero_or_pos (difference - min difference 4001) with
          hz | hpos
        · rw [hz, ephemChunks] at hb
          simp at hb
        · rw [ephemChunks, if_neg (by omega)] at hb
          simp only [List.head?_cons, Option.mem_def, Option.some.injEq] at hb
          rw [← hb]

lemma ephemChunks_cover (difference : ℕ) : ∀ start : ℤ, ∀ x : ℤ,
    (∃ c ∈ ephemChunks start difference, c.1 ≤ x ∧ x < c.1 + (c.2 : ℤ))
      ↔ (start ≤ x ∧ x < start + difference) := by
  induction difference using Nat.strong_induction_on with
  | _ difference ih =>
    intro start x
    by_cases h0 : difference = 0
    · subst h0
      rw [ephemChunks]
      simp
    · rw [ephemChunks, if_neg h0]
      constructor
      · rintro ⟨c, hc, hle, hlt⟩
        rcases List.mem_cons.mp hc with h | h
        · subst h
          simp only at hle hlt
          omega
        · have := (ih (difference - min difference 4001) (by omega)
            (start + min difference 4001) x).mp ⟨c, h, hle, hlt⟩
          push_cast at this ⊢
          omega
      · rintro ⟨h1, h2⟩
        by_cases hin : x < start + (min difference 4001 : ℕ)
        · exact ⟨(start, min difference 4001), List.mem_cons_self _ _,
            h1, by exact_mod_cast hin⟩
        · push_neg at hin
          obtain ⟨c, hc, hle, hlt⟩ :=
            (ih (difference - min difference 4001) (by omega)
              (start + min difference 4001) x).mpr
              (by push_cast at hin ⊢; omega)
          exact ⟨c, List.mem_cons_of_mem _ hc, hle, hlt⟩

/-- C3: for every start and end ordinal with `end ≥ start`, writing
`span = end - start + 1`, the fetch issues exactly `⌈span / 4001⌉
chunk requests; the i-th chunk starts `4001·i` days after `start` with
length `min(remaining, 4001)` (so chunks are issued in increasing date
order); consecutive chunks abut exactly; every chunk is nonempty;
chunks are pairwise non-overlapping; and together the chunks cover
exactly the days of `[start, end]`, nothing more. -/
theorem ephemeris_chunking_covers_span (s e : ℤ) (hse : s ≤ e) :
    (ephemChunks s (e - s + 1).toNat).length
        = ((e - s + 1).toNat + 4000) / 4001 ∧
    ephemChunks s (e - s + 1).toNat
        = (List.range (((e - s + 1).toNat + 4000) / 4001)).map
            (fun i : ℕ => (s + 4001 * (i : ℤ),
              min ((e - s + 1).toNat - 4001 * i) 4001)) ∧
    List.Chain' (fun a b : ℤ × ℕ => b.1 = a.1 + (a.2 : ℤ))
      (ephemChunks s (e - s + 1).toNat) ∧
    (∀ c ∈ ephemChunks s (e - s + 1).toNat, 1 ≤ c.2) ∧
    List.Pairwise (fun a b : ℤ × ℕ => a.1 + (a.2 : ℤ) ≤ b.1)
      (ephemChunks s (e - s + 1).toNat) ∧
    ∀ x : ℤ, (∃ c ∈ ephemChunks s (e - s + 1).toNat,
        c.1 ≤ x ∧ x < c.1 + (c.2 : ℤ)) ↔ (s ≤ x ∧ x ≤ e) := by
  have hd : ((e - s + 1).toNat : ℤ) = e - s + 1 := by omega
  refine ⟨?_, ephemChunks_eq_map _ s, ephemChunks_chain _ s, ?_, ?_, ?_⟩
  · rw [ephemChunks_eq_map]
    simp
  · intro c hc
    rw [ephemChunks_eq_map] at hc
    rw [List.mem_map] at hc
    obtain ⟨i, hi, hci⟩ := hc
    rw [List.mem_range] at hi
    subst hci
    simp only
    omega
  · rw [ephemChunks_eq_map]
    apply List.Pairwise.map
      (R := fun i j : ℕ => i < j)
    · intro i j hij
      simp only
      push_cast
      have : (min ((e - s + 1).toNat - 4001 * i) 4001 : ℤ) ≤ 4001 := by
        omega
      have h1 : (4001 : ℤ) * i + 4001 ≤ 4001 * j := by
        have : (i : ℤ) + 1 ≤ j := by exact_mod_cast hij
        nlinarith
      omega
    · exact List.pairwise_lt_range _
  · intro x
    rw [ephemChunks_cover]
    omega

theorem ephemeris_chunking_covers_span_witness :
    ((0 : ℤ) ≤ 5000) ∧
    ((ephemChunks 0 ((5000 : ℤ) - 0 + 1).toNat).length
        = (((5000 : ℤ) - 0 + 1).toNat + 4000) / 4001 ∧
     ∀ x : ℤ, (∃ c ∈ ephemChunks 0 ((5000 : ℤ) - 0 + 1).toNat,
        c.1 ≤ x ∧ x < c.1 + (c.2 : ℤ)) ↔ ((0 : ℤ) ≤ x ∧ x ≤ 5000)) := by
  have h := ephemeris_chunking_covers_span 0 5000 (by norm_num)
  exact ⟨by norm_num, h.1, h.2.2.2.2.2⟩

/-! ## Real-valued magnitude formula

For the concrete scenario value of the reduction formula we model
`math.log10` by the real base-10 logarithm. -/

/-- Python `round` over the reals (nearest integer, ties to even). -/
noncomputable def pyRoundR (x : ℝ) : ℤ :=
  if x - ⌊x⌋ < 1/2 then ⌊x⌋
  else if 1/2 < x - ⌊x⌋ then ⌊x⌋ + 1
  else if ⌊x⌋ % 2 = 0 then ⌊x⌋ else ⌊x⌋ + 1

/-- Python `round(x, 2)` over the reals. -/
noncomputable def round2R (x : ℝ) : ℝ := (pyRoundR (x * 100) : ℝ) / 100

/-- The reduction formula of `reduce_magnitudes`, line for line:
`round(m_observed - 5*math.log10(delta_value*r_value) + correction, 2)`. -/
noncomputable def m_abs_real (m_observed delta_value r_value corr : ℝ) : ℝ :=
  round2R (m_observed - 5 * Real.logb 10 (delta_value * r_value) + corr)

lemma logb_ten_bounds_for_scenario :
    (0.255 : ℝ) < Real.logb 10 1.8 ∧ Real.logb 10 1.8 < 0.256 := by
  have hb : (1 : ℝ) < 10 := by norm_num
  have hlow : (10 : ℝ) ^ (51 : ℕ) < (1.8 : ℝ) ^ (200 : ℕ) := by norm_num
  have hhigh : (1.8 : ℝ) ^ (500 : ℕ) < (10 : ℝ) ^ (128 : ℕ) := by norm_num
  have h1 : Real.logb 10 ((10 : ℝ) ^ (51 : ℕ))
      < Real.logb 10 ((1.8 : ℝ) ^ (200 : ℕ)) :=
    Real.logb_lt_logb hb (by positivity) hlow
  have h2 : Real.logb 10 ((1.8 : ℝ) ^ (500 : ℕ))
      < Real.logb 10 ((10 : ℝ) ^ (128 : ℕ)) :=
    Real.logb_lt_logb hb (by positivity) hhigh
  rw [Real.logb_pow, Real.logb_pow, Real.logb_self_eq_one hb] at h1
  rw [Real.logb_pow, Real.logb_pow, Real.logb_self_eq_one hb] at h2
  push_cast at h1 h2
  constructor <;> nlinarith

lemma m_abs_real_scenario : m_abs_real 18.5 1.5 1.2 0 = 17.22 := by
  obtain ⟨hl, hr⟩ := logb_ten_bounds_for_scenario
  have h18 : (1.5 : ℝ) * 1.2 = 1.8 := by norm_num
  unfold m_abs_real round2R pyRoundR
  rw [h18]
  have hv : (18.5 - 5 * Real.logb 10 1.8 + 0) * 100
      = 1850 - 500 * Real.logb 10 1.8 := by ring
  have hlo : (1722 : ℝ) < 1850 - 500 * Real.logb 10 1.8 := by nlinarith
  have hhi : 1850 - 500 * Real.logb 10 1.8 < 1722.5 := by nlinarith
  have hfloor : ⌊(18.5 - 5 * Real.logb 10 1.8 + 0) * 100⌋ = 1722 := by
    rw [hv]
    apply Int.floor_eq_iff.mpr
    constructor
    · push_cast
      linarith
    · push_cast
      linarith
  have hfrac : (18.5 - 5 * Real.logb 10 1.8 + 0) * 100
      - ⌊(18.5 - 5 * Real.logb 10 1.8 + 0) * 100⌋ < 1/2 := by
    rw [hfloor, hv]
    push_cast
    linarith
  rw [if_pos hfrac, hfloor]
  norm_num

/-- C9 counterexample: in the scenario (observed magnitude 18.5, filter
V, delta 1.5 AU, r 1.2 AU, correction 0), the reduction formula
`round(18.5 - 5*log10(1.5*1.2) + 0, 2)` evaluates to `17.22`, not the
claimed `17.71` (the spec's intermediate value `0.7932` for
`5*log10(1.8)` is wrong; the true value is about `1.2764`). -/
theorem scenario_absolute_magnitude_cex :
    m_abs_real 18.5 1.5 1.2 0 = 17.22 ∧ m_abs_real 18.5 1.5 1.2 0 ≠ 17.71 := by
  refine ⟨m_abs_real_scenario, ?_⟩
  rw [m_abs_real_scenario]
  norm_num

/-- C9 amended: for ephemeris row `(2023,1,1,1.5,1.2,10.0)`, observation
row `(2023,1,1,18.5,V)`, perihelion 2023-01-01 and period 365.25 days:
the join emits exactly `(2023,1,1,18.5,V,1.5,1.2,10.0)` with count 1,
epoch normalization gives rounded offset 0, the V-band correction is 0,
and the absolute magnitude is
`round(18.5 - 5*log10(1.5*1.2) + 0, 2) = 17.22`. -/
theorem scenario_pipeline_joined_offset_magnitude :
    combine_data [["2023", "1", "1", "18.5", "V"]]
        [["2023", "1", "1", "1.5", "1.2", "10.0"]]
      = ([["2023", "1", "1", "18.5", "V", "1.5", "1.2", "10.0"]], 1) ∧
    correct_dates_offset ⟨2023, 1, 1⟩ ⟨2023, 1, 1⟩ (1461 / 4) = 0 ∧
    List.lookup ("V") v_band_correction = some 0 ∧
    m_abs_real 18.5 1.5 1.2 0 = 17.22 := by
  refine ⟨by decide, ?_, rfl, m_abs_real_scenario⟩
  have h0 : delta_days_of ⟨2023, 1, 1⟩ ⟨2023, 1, 1⟩ = 0 := by decide
  have hcast : ((delta_days_of ⟨2023, 1, 1⟩ ⟨2023, 1, 1⟩ : ℤ) : ℚ) = 0 := by
    rw [h0]
    norm_num
  unfold correct_dates_offset wrapped_offset wrapDelta
  rw [hcast]
  have hu : wrap_up (0 : ℚ) (1461 / 4) = 0 := by
    rw [wrap_up, dif_neg (by norm_num)]
  have hd : wrap_down (0 : ℚ) (1461 / 4) = 0 := by
    rw [wrap_down, dif_neg (by norm_num)]
  rw [hu, hd]
  norm_num [pyRound]

/-! ## Epoch-parameter fallback (`new_perihelion_or_period`, `__main__`)

`new_perihelion_or_period` asks for a replacement value and tries to
parse it (`datetime.strptime` for the perihelion date, `float` for the
period).  On a `ValueError` it only prints a message, so the initial
`new_value = None` is returned.  The parse outcome of the interactive
input is modelled as an `Option` parameter (`none` = unparsable input).
The `__main__` pipeline then guards the call to
`correct_dates(perihelion_date, period)` only on the download-success
flag and the join count — never on the epoch parameters themselves. -/

inductive EpochValue where
  | date (d : Date)
  | days (q : ℚ)

/-- `new_perihelion_or_period(valid_perihelion_date, valid_period)`:
returns the parsed replacement value, or `None` when parsing failed. -/
def new_perihelion_or_period (valid_perihelion_date valid_period : Bool)
    (date_input : Option Date) (period_input : Option ℚ) :
    Option EpochValue :=
  if valid_perihelion_date = false then date_input.map EpochValue.date
  else if valid_period = false then period_input.map EpochValue.days
  else none

/-- Return triple of `download_observations` (its epoch-resolution
tail, after the observations table was stored successfully). -/
structure ObsEpochResult where
  successful_download : ℕ
  perihelion_date : Option EpochValue
  period : Option EpochValue

/-- Lines 250–304 of `download_observations`: the four presence cases
for the scraped perihelion/period strings, each followed by the
agree/override prompt.  `fallback_date` and `fallback_period` are the
parse outcomes of the interactive inputs. -/
def download_observations_epoch
    (perihelion_date_found period_found : Bool)
    (found_perihelion : Date) (found_period_years : ℚ)
    (fallback_date : Option Date) (fallback_period : Option ℚ)
    (user_agrees : Bool) : ObsEpochResult :=
  let resolved : Option EpochValue × Option EpochValue :=
    if !perihelion_date_found && !period_found then
      (new_perihelion_or_period false true fallback_date fallback_period,
       new_perihelion_or_period true false fallback_date fallback_period)
    else if !perihelion_date_found then
      (new_perihelion_or_period false true fallback_date fallback_period,
       some (.days (found_period_years * 365.25)))
    else if !period_found then
      (some (.date found_perihelion),
       new_perihelion_or_period true false fallback_date fallback_period)
    else
      (some (.date found_perihelion),
       some (.days (found_period_years * 365.25)))
  if user_agrees = false then
    ⟨1, new_perihelion_or_period false true fallback_date fallback_period,
     new_perihelion_or_period true false fallback_date fallback_period⟩
  else ⟨1, resolved.1, resolved.2⟩

/-- The only guard `__main__` checks before calling
`correct_dates(perihelion_date, period)`: the observations download
succeeded and the join found rows.  The epoch parameters are not
inspected. -/
def main_reaches_correct_dates (success_down_obs n_obs : ℕ) : Bool :=
  decide (success_down_obs ≠ 0) && decide (n_obs ≠ 0)

/-- C6 (code bug): with the perihelion date missing upstream and a
malformed fallback input, `new_perihelion_or_period` swallows the parse
error and returns `None`; `download_observations` still reports
success, and `__main__`'s guard — which never inspects the epoch
parameters — proceeds into `correct_dates` with a `None` perihelion
date.  No `EpochResolutionError` (or any error) is signalled before
normalization, contrary to the claim. -/
theorem missing_perihelion_malformed_fallback_reaches_normalization :
    new_perihelion_or_period false true none (some 100) = none ∧
    (download_observations_epoch false true ⟨2023, 1, 1⟩ 3 none
      (some 100) true).perihelion_date = none ∧
    (download_observations_epoch false true ⟨2023, 1, 1⟩ 3 none
      (some 100) true).successful_download = 1 ∧
    main_reaches_correct_dates 1 1 = true :=
  ⟨rfl, rfl, rfl, rfl⟩

end MPC
